import Mathlib

/-!
Verification of the block-removal core of `src/clean_file_content.py`
(`ContentCleaner.clean_content` and `ContentCleaner.count_blocks`).

A text buffer is modelled as a `List Char`.  The Python code works with
`re.sub`/`re.findall` over two fixed patterns:

* `start_pattern = r"TEST\.IMPORT_FAILURES:"` — a regex that matches exactly
  the literal string "TEST.IMPORT_FAILURES:".
* `end_pattern = r"TEST\.END_IMPORT_FAILURES:"` — likewise the literal
  "TEST.END_IMPORT_FAILURES:".
* `full_pattern = start_pattern ++ "[\s\S]*?" ++ end_pattern`.

Semantics of `re.sub(full_pattern, "", content)` over these patterns: the
engine scans left to right; a match can only begin at an occurrence of the
start literal, and because `[\s\S]*?` is lazy the match ends at the first
occurrence of the end literal beginning at or after the end of the start
literal.  After the (empty) replacement, scanning resumes at the end of the
removed span; matches are therefore the non-overlapping left-to-right ones.
If the first occurrence of the start literal has no end literal after it,
no later occurrence has one either (any end occurrence late enough for a
later start is also late enough for the earlier one), so the whole string
is left untouched.  `removeAux` below implements exactly this; the fuel
argument only bounds the number of removed blocks, and `s.length` blocks is
always enough because each removed block is at least one character long.

Semantics of `re.sub(r'\n\s*\n\s*\n', '\n\n', cleaned)`: a match can only
begin at a `'\n'`.  Let `r` be the maximal run of whitespace characters
following that newline.  Both `\s*` groups are greedy, and all three `\n`
of the pattern as well as everything the `\s*` groups consume must lie
inside `'\n' :: r` (`'\n'` is itself whitespace and the run is maximal).
Greedy backtracking picks the largest position for the second `\n` that
still leaves a third one, and then the largest position for the third one:
so the pattern matches at the newline iff `r` contains at least two further
newlines, and the match extends through the **last** newline of `r`.  The
remainder after the match is the (newline-free) tail of `r` after its last
newline, followed by the non-whitespace remainder.  `normalize` below
implements exactly this scan, emitting the replacement "\n\n" and
continuing after the match.

The flags `re.MULTILINE | re.DOTALL` only affect `^`, `$` and `.`, none of
which occur in the patterns, so they are irrelevant.
-/

/-- Python's `\s` on `str`: the characters `str.isspace` accepts, i.e. the
ASCII whitespace `\t \n \v \f \r`, the separators `\x1c`-`\x1f`, space,
`\x85`, `\xa0`, and the Unicode Zs/Zl/Zp code points. -/
def isPySpace (c : Char) : Bool :=
  let n := c.toNat
  (9 ≤ n && n ≤ 13) || (28 ≤ n && n ≤ 32) || n == 0x85 || n == 0xA0 ||
    n == 0x1680 || (0x2000 ≤ n && n ≤ 0x200A) || n == 0x2028 || n == 0x2029 ||
    n == 0x202F || n == 0x205F || n == 0x3000

/-- Index of the first occurrence of `pat` as a contiguous substring of `s`
(Python's leftmost match position for a literal pattern), if any. -/
def findSub (pat : List Char) (s : List Char) : Option Nat :=
  if pat.isPrefixOf s then some 0
  else
    match s with
    | [] => none
    | _ :: t => (findSub pat t).map (fun n => n + 1)

/-- `pat` occurs in `s` starting at index `k`. -/
def occursAt (pat s : List Char) (k : Nat) : Bool :=
  pat.isPrefixOf (s.drop k)

/-- One `re.sub(full_pattern, "", ·)` pass for markers `sp`/`ep`: repeatedly
find the next start literal, pair it lazily with the first end literal after
it, and delete the span, resuming after the deleted span.  `fuel` bounds the
number of deleted blocks; each block consumes at least `sp.length`
characters, so `s.length` is always sufficient fuel for nonempty `sp`. -/
def removeAux (sp ep : List Char) : Nat → List Char → List Char
  | 0, s => s
  | Nat.succ fuel, s =>
    match findSub sp s with
    | none => s
    | some i =>
      match findSub ep (s.drop (i + sp.length)) with
      | none => s
      | some j =>
        s.take i ++ removeAux sp ep fuel ((s.drop (i + sp.length)).drop (j + ep.length))

/-- The block-removal pass of `clean_content` (the first `re.sub`),
generalized over the marker pair as in the spec's `removeBlocks`. -/
def removeBlocks (sp ep s : List Char) : List Char :=
  removeAux sp ep s.length s

/-- `re.findall(full_pattern, ·)` finds the same non-overlapping matches as
`re.sub`; `count_blocks` only needs how many there are. -/
def countAux (sp ep : List Char) : Nat → List Char → Nat
  | 0, _ => 0
  | Nat.succ fuel, s =>
    match findSub sp s with
    | none => 0
    | some i =>
      match findSub ep (s.drop (i + sp.length)) with
      | none => 0
      | some j =>
        countAux sp ep fuel ((s.drop (i + sp.length)).drop (j + ep.length)) + 1

/-- The number of matched blocks, generalized over the marker pair. -/
def countBlocks (sp ep s : List Char) : Nat :=
  countAux sp ep s.length s

/-- The literal string matched by `self.start_pattern`. -/
def start_marker : List Char := "TEST.IMPORT_FAILURES:".toList

/-- The literal string matched by `self.end_pattern`. -/
def end_marker : List Char := "TEST.END_IMPORT_FAILURES:".toList

/-- The suffix of `r` strictly after its last `'\n'` (all of `r` when `r`
has no newline). -/
def nlTail (r : List Char) : List Char :=
  (r.reverse.takeWhile (fun c => !(c == '\n'))).reverse

/-- One scanning step list for the whitespace-normalization pass
`re.sub(r'\n\s*\n\s*\n', '\n\n', ·)` of `clean_content`, per the match
semantics derived in the header comment: at a newline whose following
whitespace run contains at least two further newlines, the match runs
through the last newline of the run and is replaced by two newlines;
otherwise the character is copied and scanning advances one position.
`fuel` bounds the number of scanning steps; each step consumes at least one
character, so `s.length` steps always suffice. -/
def normAux : Nat → List Char → List Char
  | 0, s => s
  | Nat.succ _, [] => []
  | Nat.succ fuel, c :: t =>
    if c = '\n' ∧ 2 ≤ (t.takeWhile isPySpace).count '\n' then
      '\n' :: '\n' :: normAux fuel (nlTail (t.takeWhile isPySpace) ++ t.dropWhile isPySpace)
    else
      c :: normAux fuel t

/-- The whitespace-normalization pass of `clean_content`. -/
def normalizeWs (s : List Char) : List Char :=
  normAux s.length s

/-- `ContentCleaner.clean_content`: remove all blocks between the fixed
markers, then normalize whitespace. -/
def clean_content (s : List Char) : List Char :=
  normalizeWs (removeBlocks start_marker end_marker s)

/-- `ContentCleaner.count_blocks`: the number of matched blocks between the
fixed markers. -/
def count_blocks (s : List Char) : Nat :=
  countAux start_marker end_marker s.length s

example : clean_content "a\nTEST.IMPORT_FAILURES:\nbad\nTEST.END_IMPORT_FAILURES:\nb".toList
    = "a\n\nb".toList := by decide

example : removeBlocks "X:".toList "Y:".toList "p X: q X: r Y: s".toList
    = "p  s".toList := by decide

example : normalizeWs "a\n\n\nb".toList = "a\n\nb".toList := by decide

example : normalizeWs "a\n \n\t\nb".toList = "a\n\nb".toList := by decide

example : count_blocks "a\nTEST.IMPORT_FAILURES:\nbad\nTEST.END_IMPORT_FAILURES:\nb".toList
    = 1 := by decide

/-! ### Generic list helpers -/

lemma takeWhile_append_all (p : Char → Bool) (r t : List Char)
    (h : ∀ c ∈ r, p c = true) :
    (r ++ t).takeWhile p = r ++ t.takeWhile p := by
  induction r with
  | nil => simp
  | cons x r ih =>
    have hx : p x = true := h x (by simp)
    simp only [List.cons_append, List.takeWhile_cons, hx, if_true]
    rw [ih (fun c hc => h c (by simp [hc]))]

lemma dropWhile_append_all (p : Char → Bool) (r t : List Char)
    (h : ∀ c ∈ r, p c = true) :
    (r ++ t).dropWhile p = t.dropWhile p := by
  induction r with
  | nil => simp
  | cons x r ih =>
    have hx : p x = true := h x (by simp)
    simp only [List.cons_append, List.dropWhile_cons, hx, if_true]
    exact ih (fun c hc => h c (by simp [hc]))

lemma takeWhile_dropWhile_nil (p : Char → Bool) (l : List Char) :
    (l.dropWhile p).takeWhile p = [] := by
  induction l with
  | nil => simp
  | cons c t ih =>
    by_cases hc : p c = true
    · simpa [List.dropWhile_cons, hc] using ih
    · simp only [Bool.not_eq_true] at hc
      simp [List.dropWhile_cons, List.takeWhile_cons, hc]

lemma dropWhile_of_takeWhile_nil (p : Char → Bool) (l : List Char)
    (h : l.takeWhile p = []) : l.dropWhile p = l := by
  cases l with
  | nil => rfl
  | cons c t =>
    by_cases hc : p c = true
    · simp [List.takeWhile_cons, hc] at h
    · simp only [Bool.not_eq_true] at hc
      simp [List.dropWhile_cons, hc]

lemma tw_dw_length (p : Char → Bool) (l : List Char) :
    (l.takeWhile p).length + (l.dropWhile p).length = l.length := by
  rw [← List.length_append, List.takeWhile_append_dropWhile]

lemma length_takeWhile_lt_of_exists (p : Char → Bool) :
    ∀ (l : List Char) (x : Char), x ∈ l → p x = false →
      (l.takeWhile p).length < l.length := by
  intro l
  induction l with
  | nil => intro x hx _; cases hx
  | cons c t ih =>
    intro x hx hpx
    by_cases hc : p c = true
    · have hxt : x ∈ t := by
        rcases List.mem_cons.mp hx with rfl | hx'
        · rw [hc] at hpx; cases hpx
        · exact hx'
      simpa [List.takeWhile_cons, hc] using ih x hxt hpx
    · simp only [Bool.not_eq_true] at hc
      simp [List.takeWhile_cons, hc]

/-! ### `findSub` and `occursAt` -/

lemma occursAt_zero (pat s : List Char) : occursAt pat s 0 = pat.isPrefixOf s := by
  simp [occursAt]

lemma occursAt_cons_succ (pat : List Char) (c : Char) (t : List Char) (k : Nat) :
    occursAt pat (c :: t) (k + 1) = occursAt pat t k := by
  simp [occursAt, List.drop_succ_cons]

lemma findSub_pos (pat s : List Char) (hp : pat.isPrefixOf s = true) :
    findSub pat s = some 0 := by
  cases s <;> simp [findSub, hp]

lemma findSub_neg_nil (pat : List Char) (hp : pat.isPrefixOf ([] : List Char) = false) :
    findSub pat ([] : List Char) = none := by
  simp [findSub, hp]

lemma findSub_neg_cons (pat : List Char) (c : Char) (t : List Char)
    (hp : pat.isPrefixOf (c :: t) = false) :
    findSub pat (c :: t) = (findSub pat t).map (fun n => n + 1) := by
  simp [findSub, hp]

lemma findSub_eq_some_iff (pat : List Char) :
    ∀ (s : List Char) (i : Nat),
      findSub pat s = some i ↔
        occursAt pat s i = true ∧ ∀ k < i, occursAt pat s k = false := by
  intro s
  induction s with
  | nil =>
    intro i
    by_cases hp : pat.isPrefixOf ([] : List Char) = true
    · constructor
      · intro h
        rw [findSub_pos pat [] hp] at h
        have h0 : i = 0 := by simpa using h.symm
        subst h0
        exact ⟨by rw [occursAt_zero]; exact hp, fun k hk => absurd hk (by omega)⟩
      · rintro ⟨-, hmin⟩
        rcases Nat.eq_zero_or_pos i with h0 | h0
        · subst h0; exact findSub_pos pat [] hp
        · have h1 := hmin 0 h0
          rw [occursAt_zero, hp] at h1
          cases h1
    · simp only [Bool.not_eq_true] at hp
      constructor
      · intro h
        rw [findSub_neg_nil pat hp] at h
        cases h
      · rintro ⟨hocc, -⟩
        have h1 : occursAt pat ([] : List Char) i = pat.isPrefixOf [] := by
          simp [occursAt]
        rw [h1, hp] at hocc
        cases hocc
  | cons c t ih =>
    intro i
    by_cases hp : pat.isPrefixOf (c :: t) = true
    · constructor
      · intro h
        rw [findSub_pos pat (c :: t) hp] at h
        have h0 : i = 0 := by simpa using h.symm
        subst h0
        exact ⟨by rw [occursAt_zero]; exact hp, fun k hk => absurd hk (by omega)⟩
      · rintro ⟨-, hmin⟩
        rcases Nat.eq_zero_or_pos i with h0 | h0
        · subst h0; exact findSub_pos pat (c :: t) hp
        · have h1 := hmin 0 h0
          rw [occursAt_zero, hp] at h1
          cases h1
    · simp only [Bool.not_eq_true] at hp
      rw [findSub_neg_cons pat c t hp]
      constructor
      · intro h
        rw [Option.map_eq_some'] at h
        obtain ⟨i', hi', hi⟩ := h
        obtain ⟨hocc, hmin⟩ := (ih i').mp hi'
        subst hi
        refine ⟨by rw [occursAt_cons_succ]; exact hocc, ?_⟩
        intro k hk
        cases k with
        | zero => rw [occursAt_zero]; exact hp
        | succ k' =>
          rw [occursAt_cons_succ]
          exact hmin k' (by omega)
      · rintro ⟨hocc, hmin⟩
        cases i with
        | zero =>
          rw [occursAt_zero, hp] at hocc
          cases hocc
        | succ i' =>
          have h1 : findSub pat t = some i' := by
            refine (ih i').mpr ⟨by rw [← occursAt_cons_succ pat c]; exact hocc, ?_⟩
            intro k hk
            have h2 := hmin (k + 1) (by omega)
            rwa [occursAt_cons_succ] at h2
          rw [h1]
          rfl

lemma findSub_eq_none_iff (pat : List Char) :
    ∀ s : List Char, findSub pat s = none ↔ ∀ k, occursAt pat s k = false := by
  intro s
  induction s with
  | nil =>
    by_cases hp : pat.isPrefixOf ([] : List Char) = true
    · rw [findSub_pos pat [] hp]
      constructor
      · intro h; cases h
      · intro h
        have h1 := h 0
        rw [occursAt_zero, hp] at h1
        cases h1
    · simp only [Bool.not_eq_true] at hp
      rw [findSub_neg_nil pat hp]
      constructor
      · intro _ k
        have h1 : occursAt pat ([] : List Char) k = pat.isPrefixOf [] := by
          simp [occursAt]
        rw [h1, hp]
      · intro _; rfl
  | cons c t ih =>
    by_cases hp : pat.isPrefixOf (c :: t) = true
    · rw [findSub_pos pat (c :: t) hp]
      constructor
      · intro h; cases h
      · intro h
        have h1 := h 0
        rw [occursAt_zero, hp] at h1
        cases h1
    · simp only [Bool.not_eq_true] at hp
      rw [findSub_neg_cons pat c t hp]
      constructor
      · intro h k
        have ht : findSub pat t = none := by
          cases hf : findSub pat t with
          | none => rfl
          | some v => rw [hf] at h; cases h
        cases k with
        | zero => rw [occursAt_zero]; exact hp
        | succ k' => rw [occursAt_cons_succ]; exact (ih.mp ht) k'
      · intro h
        have ht : findSub pat t = none := by
          refine ih.mpr ?_
          intro k
          have h2 := h (k + 1)
          rwa [occursAt_cons_succ] at h2
        rw [ht]
        rfl

lemma findSub_bound (pat : List Char) :
    ∀ (s : List Char) (i : Nat), findSub pat s = some i → i + pat.length ≤ s.length := by
  intro s
  induction s with
  | nil =>
    intro i h
    by_cases hp : pat.isPrefixOf ([] : List Char) = true
    · have hn : pat = [] := List.prefix_nil.mp (List.isPrefixOf_iff_prefix.mp hp)
      rw [findSub_pos pat [] hp] at h
      have h0 : i = 0 := by simpa using h.symm
      simp [hn, h0]
    · simp only [Bool.not_eq_true] at hp
      rw [findSub_neg_nil pat hp] at h
      cases h
  | cons c t ih =>
    intro i h
    by_cases hp : pat.isPrefixOf (c :: t) = true
    · rw [findSub_pos pat (c :: t) hp] at h
      have h0 : i = 0 := by simpa using h.symm
      subst h0
      have h1 := (List.isPrefixOf_iff_prefix.mp hp).length_le
      simpa using h1
    · simp only [Bool.not_eq_true] at hp
      rw [findSub_neg_cons pat c t hp, Option.map_eq_some'] at h
      obtain ⟨i', hi', hi⟩ := h
      have h1 := ih i' hi'
      simp only [List.length_cons]
      omega

lemma findSub_nil_of_ne (pat : List Char) (h : pat ≠ []) :
    findSub pat ([] : List Char) = none := by
  cases pat with
  | nil => exact absurd rfl h
  | cons c p => simp [findSub, List.isPrefixOf]

/-! ### `removeAux` / `countAux` -/

lemma removeAux_of_none (sp ep : List Char) (f : Nat) (s : List Char)
    (h : findSub sp s = none) : removeAux sp ep f s = s := by
  cases f with
  | zero => rfl
  | succ f => simp [removeAux, h]

lemma removeAux_of_noend (sp ep : List Char) (f : Nat) (s : List Char) (i : Nat)
    (h1 : findSub sp s = some i)
    (h2 : findSub ep (s.drop (i + sp.length)) = none) :
    removeAux sp ep f s = s := by
  cases f with
  | zero => rfl
  | succ f => simp [removeAux, h1, h2]

lemma removeAux_step (sp ep : List Char) (f : Nat) (s : List Char) (i j : Nat)
    (h1 : findSub sp s = some i)
    (h2 : findSub ep (s.drop (i + sp.length)) = some j) :
    removeAux sp ep (f + 1) s =
      s.take i ++ removeAux sp ep f ((s.drop (i + sp.length)).drop (j + ep.length)) := by
  simp [removeAux, h1, h2]

lemma removeAux_fuel_congr (sp ep : List Char) (hsp : sp ≠ []) :
    ∀ (f1 f2 : Nat) (s : List Char), s.length ≤ f1 → s.length ≤ f2 →
      removeAux sp ep f1 s = removeAux sp ep f2 s := by
  intro f1
  induction f1 with
  | zero =>
    intro f2 s hs1 _
    have h0 : s = [] := List.length_eq_zero.mp (Nat.le_zero.mp hs1)
    subst h0
    rw [removeAux_of_none sp ep f2 [] (findSub_nil_of_ne sp hsp)]
    rfl
  | succ f1 ih =>
    intro f2 s hs1 hs2
    cases f2 with
    | zero =>
      have h0 : s = [] := List.length_eq_zero.mp (Nat.le_zero.mp hs2)
      subst h0
      rw [removeAux_of_none sp ep (f1 + 1) [] (findSub_nil_of_ne sp hsp)]
      rfl
    | succ f2 =>
      cases h1 : findSub sp s with
      | none => rw [removeAux_of_none sp ep _ s h1, removeAux_of_none sp ep _ s h1]
      | some i =>
        cases h2 : findSub ep (s.drop (i + sp.length)) with
        | none =>
          rw [removeAux_of_noend sp ep _ s i h1 h2, removeAux_of_noend sp ep _ s i h1 h2]
        | some j =>
          rw [removeAux_step sp ep f1 s i j h1 h2, removeAux_step sp ep f2 s i j h1 h2]
          have hb1 := findSub_bound sp s i h1
          have hb2 := findSub_bound ep (s.drop (i + sp.length)) j h2
          have hsp1 : 1 ≤ sp.length := by
            cases sp with
            | nil => exact absurd rfl hsp
            | cons c p => simp
          have hlen : ((s.drop (i + sp.length)).drop (j + ep.length)).length
              = s.length - (i + sp.length) - (j + ep.length) := by
            simp only [List.length_drop]
          rw [List.length_drop] at hb2
          congr 1
          exact ih f2 _ (by omega) (by omega)

lemma removeAux_length_le (sp ep : List Char) :
    ∀ (f : Nat) (s : List Char), (removeAux sp ep f s).length ≤ s.length := by
  intro f
  induction f with
  | zero => intro s; exact Nat.le_refl _
  | succ f ih =>
    intro s
    cases h1 : findSub sp s with
    | none => rw [removeAux_of_none sp ep _ s h1]
    | some i =>
      cases h2 : findSub ep (s.drop (i + sp.length)) with
      | none => rw [removeAux_of_noend sp ep _ s i h1 h2]
      | some j =>
        rw [removeAux_step sp ep f s i j h1 h2]
        have hb1 := findSub_bound sp s i h1
        have hb2 := findSub_bound ep (s.drop (i + sp.length)) j h2
        rw [List.length_drop] at hb2
        have hr := ih ((s.drop (i + sp.length)).drop (j + ep.length))
        simp only [List.length_append, List.length_take, List.length_drop] at *
        omega

lemma removeBlocks_of_none (sp ep s : List Char) (h : findSub sp s = none) :
    removeBlocks sp ep s = s :=
  removeAux_of_none sp ep s.length s h

lemma removeBlocks_of_noend (sp ep s : List Char) (i : Nat)
    (h1 : findSub sp s = some i)
    (h2 : findSub ep (s.drop (i + sp.length)) = none) :
    removeBlocks sp ep s = s :=
  removeAux_of_noend sp ep s.length s i h1 h2

lemma removeBlocks_step (sp ep s : List Char) (i j : Nat) (hsp : sp ≠ [])
    (h1 : findSub sp s = some i)
    (h2 : findSub ep (s.drop (i + sp.length)) = some j) :
    removeBlocks sp ep s =
      s.take i ++ removeBlocks sp ep ((s.drop (i + sp.length)).drop (j + ep.length)) := by
  have hb1 := findSub_bound sp s i h1
  have hb2 := findSub_bound ep (s.drop (i + sp.length)) j h2
  rw [List.length_drop] at hb2
  have hsp1 : 1 ≤ sp.length := by
    cases sp with
    | nil => exact absurd rfl hsp
    | cons c p => simp
  have hs : s.length = (s.length - 1) + 1 := by omega
  unfold removeBlocks
  rw [hs, removeAux_step sp ep (s.length - 1) s i j h1 h2]
  congr 1
  exact removeAux_fuel_congr sp ep hsp _ _ _ (by simp [List.length_drop]; omega)
    (by simp [List.length_drop])

lemma countAux_of_none (sp ep : List Char) (f : Nat) (s : List Char)
    (h : findSub sp s = none) : countAux sp ep f s = 0 := by
  cases f with
  | zero => rfl
  | succ f => simp [countAux, h]

lemma countAux_of_noend (sp ep : List Char) (f : Nat) (s : List Char) (i : Nat)
    (h1 : findSub sp s = some i)
    (h2 : findSub ep (s.drop (i + sp.length)) = none) :
    countAux sp ep f s = 0 := by
  cases f with
  | zero => rfl
  | succ f => simp [countAux, h1, h2]

lemma countAux_step (sp ep : List Char) (f : Nat) (s : List Char) (i j : Nat)
    (h1 : findSub sp s = some i)
    (h2 : findSub ep (s.drop (i + sp.length)) = some j) :
    countAux sp ep (f + 1) s =
      countAux sp ep f ((s.drop (i + sp.length)).drop (j + ep.length)) + 1 := by
  simp [countAux, h1, h2]

lemma countAux_fuel_congr (sp ep : List Char) (hsp : sp ≠ []) :
    ∀ (f1 f2 : Nat) (s : List Char), s.length ≤ f1 → s.length ≤ f2 →
      countAux sp ep f1 s = countAux sp ep f2 s := by
  intro f1
  induction f1 with
  | zero =>
    intro f2 s hs1 _
    have h0 : s = [] := List.length_eq_zero.mp (Nat.le_zero.mp hs1)
    subst h0
    rw [countAux_of_none sp ep f2 [] (findSub_nil_of_ne sp hsp)]
    rfl
  | succ f1 ih =>
    intro f2 s hs1 hs2
    cases f2 with
    | zero =>
      have h0 : s = [] := List.length_eq_zero.mp (Nat.le_zero.mp hs2)
      subst h0
      rw [countAux_of_none sp ep (f1 + 1) [] (findSub_nil_of_ne sp hsp)]
      rfl
    | succ f2 =>
      cases h1 : findSub sp s with
      | none => rw [countAux_of_none sp ep _ s h1, countAux_of_none sp ep _ s h1]
      | some i =>
        cases h2 : findSub ep (s.drop (i + sp.length)) with
        | none =>
          rw [countAux_of_noend sp ep _ s i h1 h2, countAux_of_noend sp ep _ s i h1 h2]
        | some j =>
          rw [countAux_step sp ep f1 s i j h1 h2, countAux_step sp ep f2 s i j h1 h2]
          have hb1 := findSub_bound sp s i h1
          have hb2 := findSub_bound ep (s.drop (i + sp.length)) j h2
          have hsp1 : 1 ≤ sp.length := by
            cases sp with
            | nil => exact absurd rfl hsp
            | cons c p => simp
          rw [List.length_drop] at hb2
          congr 1
          exact ih f2 _ (by simp [List.length_drop]; omega) (by simp [List.length_drop]; omega)

lemma countBlocks_step (sp ep s : List Char) (i j : Nat) (hsp : sp ≠ [])
    (h1 : findSub sp s = some i)
    (h2 : findSub ep (s.drop (i + sp.length)) = some j) :
    countBlocks sp ep s =
      countBlocks sp ep ((s.drop (i + sp.length)).drop (j + ep.length)) + 1 := by
  have hb1 := findSub_bound sp s i h1
  have hb2 := findSub_bound ep (s.drop (i + sp.length)) j h2
  rw [List.length_drop] at hb2
  have hsp1 : 1 ≤ sp.length := by
    cases sp with
    | nil => exact absurd rfl hsp
    | cons c p => simp
  have hs : s.length = (s.length - 1) + 1 := by omega
  unfold countBlocks
  rw [hs, countAux_step sp ep (s.length - 1) s i j h1 h2]
  congr 1
  exact countAux_fuel_congr sp ep hsp _ _ _ (by simp [List.length_drop]; omega)
    (by simp [List.length_drop])

/-! ### `normAux` / `normalizeWs` -/

lemma normAux_nil (f : Nat) : normAux f ([] : List Char) = [] := by
  cases f <;> rfl

lemma normAux_cons_copy (f : Nat) (c : Char) (t : List Char)
    (h : ¬(c = '\n' ∧ 2 ≤ (t.takeWhile isPySpace).count '\n')) :
    normAux (f + 1) (c :: t) = c :: normAux f t := by
  simp [normAux, h]

lemma normAux_cons_match (f : Nat) (t : List Char)
    (h : 2 ≤ (t.takeWhile isPySpace).count '\n') :
    normAux (f + 1) ('\n' :: t) =
      '\n' :: '\n' :: normAux f (nlTail (t.takeWhile isPySpace) ++ t.dropWhile isPySpace) := by
  simp [normAux, h]

lemma nlTail_length_le (r : List Char) : (nlTail r).length ≤ r.length := by
  unfold nlTail
  calc (List.takeWhile (fun c => !(c == '\n')) r.reverse).reverse.length
      = (List.takeWhile (fun c => !(c == '\n')) r.reverse).length := List.length_reverse ..
    _ ≤ r.reverse.length := (List.takeWhile_sublist _).length_le
    _ = r.length := List.length_reverse ..

lemma mem_nlTail (r : List Char) (c : Char) (h : c ∈ nlTail r) : c ∈ r := by
  unfold nlTail at h
  rw [List.mem_reverse] at h
  have h1 : c ∈ r.reverse := (List.takeWhile_sublist _).mem h
  rwa [List.mem_reverse] at h1

lemma count_nlTail (r : List Char) : (nlTail r).count '\n' = 0 := by
  rw [List.count_eq_zero]
  intro h
  unfold nlTail at h
  rw [List.mem_reverse] at h
  have h1 := List.mem_takeWhile_imp h
  simp at h1

lemma nlTail_length_lt (r : List Char) (h : 1 ≤ r.count '\n') :
    (nlTail r).length < r.length := by
  have hm : '\n' ∈ r := List.count_pos_iff.mp (by omega)
  have hm' : '\n' ∈ r.reverse := List.mem_reverse.mpr hm
  have h1 : (List.takeWhile (fun c => !(c == '\n')) r.reverse).length < r.reverse.length :=
    length_takeWhile_lt_of_exists _ r.reverse '\n' hm' (by simp)
  unfold nlTail
  simp only [List.length_reverse] at h1 ⊢
  exact h1

lemma normAux_fuel_congr :
    ∀ (f1 f2 : Nat) (s : List Char), s.length ≤ f1 → s.length ≤ f2 →
      normAux f1 s = normAux f2 s := by
  intro f1
  induction f1 with
  | zero =>
    intro f2 s hs1 _
    have h0 : s = [] := List.length_eq_zero.mp (Nat.le_zero.mp hs1)
    subst h0
    rw [normAux_nil, normAux_nil]
  | succ f1 ih =>
    intro f2 s hs1 hs2
    cases f2 with
    | zero =>
      have h0 : s = [] := List.length_eq_zero.mp (Nat.le_zero.mp hs2)
      subst h0
      rw [normAux_nil, normAux_nil]
    | succ f2 =>
      cases s with
      | nil => rw [normAux_nil, normAux_nil]
      | cons c t =>
        rw [List.length_cons] at hs1 hs2
        by_cases h : c = '\n' ∧ 2 ≤ (t.takeWhile isPySpace).count '\n'
        · obtain ⟨rfl, hcnt⟩ := h
          rw [normAux_cons_match f1 t hcnt, normAux_cons_match f2 t hcnt]
          have hlen : (nlTail (t.takeWhile isPySpace) ++ t.dropWhile isPySpace).length ≤ t.length := by
            rw [List.length_append]
            have ha := nlTail_length_le (t.takeWhile isPySpace)
            have hb := tw_dw_length isPySpace t
            omega
          rw [ih f2 _ (by omega) (by omega)]
        · rw [normAux_cons_copy f1 c t h, normAux_cons_copy f2 c t h]
          rw [ih f2 t (by omega) (by omega)]

lemma normalizeWs_nil : normalizeWs ([] : List Char) = [] := rfl

lemma normalizeWs_cons_copy (c : Char) (t : List Char)
    (h : ¬(c = '\n' ∧ 2 ≤ (t.takeWhile isPySpace).count '\n')) :
    normalizeWs (c :: t) = c :: normalizeWs t := by
  unfold normalizeWs
  rw [List.length_cons, normAux_cons_copy t.length c t h]

lemma normalizeWs_cons_match (t : List Char)
    (h : 2 ≤ (t.takeWhile isPySpace).count '\n') :
    normalizeWs ('\n' :: t) =
      '\n' :: '\n' :: normalizeWs (nlTail (t.takeWhile isPySpace) ++ t.dropWhile isPySpace) := by
  unfold normalizeWs
  rw [List.length_cons, normAux_cons_match t.length t h]
  have hlen : (nlTail (t.takeWhile isPySpace) ++ t.dropWhile isPySpace).length ≤ t.length := by
    rw [List.length_append]
    have ha := nlTail_length_le (t.takeWhile isPySpace)
    have hb := tw_dw_length isPySpace t
    omega
  rw [normAux_fuel_congr t.length _ _ hlen (Nat.le_refl _)]

/-- Copying lemma: a whitespace prefix containing at most one newline, and
followed by a non-whitespace character (or the end), passes through the
normalization scan unchanged. -/
lemma normalizeWs_ws_prefix :
    ∀ (r t : List Char), (∀ c ∈ r, isPySpace c = true) → r.count '\n' ≤ 1 →
      t.takeWhile isPySpace = [] →
      normalizeWs (r ++ t) = r ++ normalizeWs t := by
  intro r
  induction r with
  | nil => intro t _ _ _; simp
  | cons x r ih =>
    intro t hws hcnt ht
    have hx : isPySpace x = true := hws x (by simp)
    have hrw : ∀ c ∈ r, isPySpace c = true := fun c hc => hws c (by simp [hc])
    have htw : ((r ++ t).takeWhile isPySpace) = r := by
      rw [takeWhile_append_all isPySpace r t hrw, ht, List.append_nil]
    have hcr : r.count '\n' + (if x == '\n' then 1 else 0) ≤ 1 := by
      have h1 := List.count_cons '\n' x r
      omega
    have hnm : ¬(x = '\n' ∧ 2 ≤ (((r ++ t).takeWhile isPySpace)).count '\n') := by
      rintro ⟨rfl, h2⟩
      rw [htw] at h2
      simp at hcr
      omega
    rw [List.cons_append, normalizeWs_cons_copy x (r ++ t) hnm,
      ih t hrw (by omega) ht, List.cons_append]

/-- The normalization pattern matches at the head of `l`: a newline whose
following whitespace run contains at least two further newlines. -/
def headMatch : List Char → Prop
  | [] => False
  | c :: t => c = '\n' ∧ 2 ≤ (t.takeWhile isPySpace).count '\n'

/-- No position of `l` matches the normalization pattern. -/
def matchFree (l : List Char) : Prop :=
  ∀ k, ¬ headMatch (l.drop k)

lemma matchFree_nil : matchFree ([] : List Char) := by
  intro k h
  rw [List.drop_nil] at h
  exact h

lemma matchFree_cons (c : Char) (t : List Char) :
    matchFree (c :: t) ↔ ¬ headMatch (c :: t) ∧ matchFree t := by
  constructor
  · intro h
    refine ⟨h 0, ?_⟩
    intro k hk
    exact h (k + 1) (by rwa [List.drop_succ_cons])
  · rintro ⟨h0, h⟩
    intro k
    cases k with
    | zero => exact h0
    | succ k' =>
      rw [List.drop_succ_cons]
      exact h k'

lemma takeWhile_normalizeWs_nil (t : List Char) (h : t.takeWhile isPySpace = []) :
    (normalizeWs t).takeWhile isPySpace = [] := by
  cases t with
  | nil => rfl
  | cons c t' =>
    have hc : isPySpace c = false := by
      by_cases hx : isPySpace c = true
      · rw [List.takeWhile_cons, hx] at h
        cases h
      · simpa using hx
    have hcn : ¬ (c = '\n' ∧ 2 ≤ (t'.takeWhile isPySpace).count '\n') := by
      rintro ⟨rfl, -⟩
      simp [isPySpace] at hc
    rw [normalizeWs_cons_copy c t' hcn, List.takeWhile_cons, hc]
    rfl

/-- Key invariant: the output of the normalization pass contains no further
match of the normalization pattern. -/
lemma matchFree_normalizeWs (s : List Char) : matchFree (normalizeWs s) := by
  suffices H : ∀ (n : Nat) (s : List Char), s.length ≤ n → matchFree (normalizeWs s) from
    H s.length s (Nat.le_refl _)
  intro n
  induction n with
  | zero =>
    intro s hs
    have h0 : s = [] := List.length_eq_zero.mp (Nat.le_zero.mp hs)
    subst h0
    exact matchFree_nil
  | succ n ih =>
    intro s hs
    cases s with
    | nil => exact matchFree_nil
    | cons c t =>
      rw [List.length_cons] at hs
      by_cases hm : c = '\n' ∧ 2 ≤ (t.takeWhile isPySpace).count '\n'
      · obtain ⟨rfl, hcnt⟩ := hm
        rw [normalizeWs_cons_match t hcnt]
        have hA : normalizeWs (nlTail (t.takeWhile isPySpace) ++ t.dropWhile isPySpace)
            = nlTail (t.takeWhile isPySpace) ++ normalizeWs (t.dropWhile isPySpace) := by
          refine normalizeWs_ws_prefix _ _ ?_ ?_ ?_
          · intro c hc
            exact List.mem_takeWhile_imp (mem_nlTail _ c hc)
          · rw [count_nlTail]
            omega
          · exact takeWhile_dropWhile_nil isPySpace t
        have hTail : (normalizeWs (nlTail (t.takeWhile isPySpace) ++ t.dropWhile isPySpace)).takeWhile isPySpace
            = nlTail (t.takeWhile isPySpace) := by
          rw [hA, takeWhile_append_all isPySpace _ _
            (fun c hc => List.mem_takeWhile_imp (mem_nlTail _ c hc)),
            takeWhile_normalizeWs_nil _ (takeWhile_dropWhile_nil isPySpace t), List.append_nil]
        have hlen : (nlTail (t.takeWhile isPySpace) ++ t.dropWhile isPySpace).length ≤ t.length := by
          rw [List.length_append]
          have ha := nlTail_length_le (t.takeWhile isPySpace)
          have hb := tw_dw_length isPySpace t
          omega
        rw [matchFree_cons, matchFree_cons]
        refine ⟨?_, ?_, ih _ (by omega)⟩
        · rintro ⟨-, h2⟩
          rw [List.takeWhile_cons] at h2
          have hnl : isPySpace '\n' = true := by decide
          rw [hnl, if_pos rfl] at h2
          rw [List.count_cons, hTail, count_nlTail] at h2
          simp at h2
        · rintro ⟨-, h2⟩
          rw [hTail, count_nlTail] at h2
          omega
      · rw [normalizeWs_cons_copy c t hm, matchFree_cons]
        refine ⟨?_, ih t (by omega)⟩
        rintro ⟨rfl, h2⟩
        have hcnt : (t.takeWhile isPySpace).count '\n' ≤ 1 := by
          by_cases hx : 2 ≤ (t.takeWhile isPySpace).count '\n'
          · exact absurd ⟨rfl, hx⟩ hm
          · omega
        have hA : normalizeWs t = t.takeWhile isPySpace ++ normalizeWs (t.dropWhile isPySpace) := by
          conv_lhs => rw [← List.takeWhile_append_dropWhile (p := isPySpace) (l := t)]
          refine normalizeWs_ws_prefix _ _ ?_ hcnt ?_
          · intro c hc
            exact List.mem_takeWhile_imp hc
          · exact takeWhile_dropWhile_nil isPySpace t
        rw [hA, takeWhile_append_all isPySpace _ _ (fun c hc => List.mem_takeWhile_imp hc),
          takeWhile_normalizeWs_nil _ (takeWhile_dropWhile_nil isPySpace t), List.append_nil] at h2
        omega

/-- A buffer with no match is left unchanged by the normalization pass. -/
lemma normalizeWs_of_matchFree (s : List Char) (h : matchFree s) : normalizeWs s = s := by
  suffices H : ∀ (n : Nat) (s : List Char), s.length ≤ n → matchFree s → normalizeWs s = s from
    H s.length s (Nat.le_refl _) h
  intro n
  induction n with
  | zero =>
    intro s hs _
    have h0 : s = [] := List.length_eq_zero.mp (Nat.le_zero.mp hs)
    subst h0
    rfl
  | succ n ih =>
    intro s hs hmf
    cases s with
    | nil => rfl
    | cons c t =>
      rw [List.length_cons] at hs
      obtain ⟨h0, ht⟩ := (matchFree_cons c t).mp hmf
      have hm : ¬ (c = '\n' ∧ 2 ≤ (t.takeWhile isPySpace).count '\n') := h0
      rw [normalizeWs_cons_copy c t hm, ih t (by omega) ht]

/-- The normalization pass is idempotent. -/
lemma normalizeWs_idem (s : List Char) :
    normalizeWs (normalizeWs s) = normalizeWs s :=
  normalizeWs_of_matchFree _ (matchFree_normalizeWs s)

lemma takeWhile_all (p : Char → Bool) (l : List Char) (h : ∀ c ∈ l, p c = true) :
    l.takeWhile p = l := by
  have h1 := takeWhile_append_all p l [] h
  simpa using h1

lemma dropWhile_all (p : Char → Bool) (l : List Char) (h : ∀ c ∈ l, p c = true) :
    l.dropWhile p = [] := by
  have h1 := dropWhile_append_all p l [] h
  simpa using h1

lemma nlTail_append_nl (u : List Char) : nlTail (u ++ ['\n']) = [] := by
  unfold nlTail
  rw [List.reverse_append]
  simp [List.takeWhile_cons]

/-- The normalization pass never lengthens the buffer. -/
lemma normalizeWs_length_le (s : List Char) : (normalizeWs s).length ≤ s.length := by
  suffices H : ∀ (n : Nat) (s : List Char), s.length ≤ n →
      (normalizeWs s).length ≤ s.length from H s.length s (Nat.le_refl _)
  intro n
  induction n with
  | zero =>
    intro s hs
    have h0 : s = [] := List.length_eq_zero.mp (Nat.le_zero.mp hs)
    subst h0
    simp [normalizeWs_nil]
  | succ n ih =>
    intro s hs
    cases s with
    | nil => simp [normalizeWs_nil]
    | cons c t =>
      rw [List.length_cons] at hs
      by_cases hm : c = '\n' ∧ 2 ≤ (t.takeWhile isPySpace).count '\n'
      · obtain ⟨rfl, hcnt⟩ := hm
        rw [normalizeWs_cons_match t hcnt]
        have hlt : (nlTail (t.takeWhile isPySpace)).length < (t.takeWhile isPySpace).length :=
          nlTail_length_lt _ (by omega)
        have hb := tw_dw_length isPySpace t
        have hlen : (nlTail (t.takeWhile isPySpace) ++ t.dropWhile isPySpace).length ≤ t.length := by
          rw [List.length_append]
          omega
        have hr := ih (nlTail (t.takeWhile isPySpace) ++ t.dropWhile isPySpace) (by omega)
        simp only [List.length_cons, List.length_append] at *
        omega
      · rw [normalizeWs_cons_copy c t hm]
        have hr := ih t (by omega)
        simp only [List.length_cons]
        omega

/-! ### More `occursAt` bridges and append bookkeeping -/

lemma occursAt_drop (pat s : List Char) (a k : Nat) :
    occursAt pat (s.drop a) k = occursAt pat s (a + k) := by
  simp [occursAt, List.drop_drop, Nat.add_comm]

lemma occursAt_true_bound (pat s : List Char) (k : Nat) (hp : pat ≠ [])
    (h : occursAt pat s k = true) : k + pat.length ≤ s.length := by
  have h1 : pat <+: s.drop k := List.isPrefixOf_iff_prefix.mp h
  have h2 := h1.length_le
  rw [List.length_drop] at h2
  have h3 : 1 ≤ pat.length := by
    cases pat with
    | nil => exact absurd rfl hp
    | cons c p => simp
  omega

lemma take_append_len (u v : List Char) (n : Nat) (h : n = u.length) :
    (u ++ v).take n = u := by
  subst h
  exact List.take_left u v

lemma drop_append_len (u v : List Char) (n : Nat) (h : n = u.length) :
    (u ++ v).drop n = v := by
  subst h
  exact List.drop_left u v

lemma count_blocks_eq (s : List Char) :
    count_blocks s = countBlocks start_marker end_marker s := rfl

/-! ### Claim theorems -/

/-- C1: whenever a start-marker occurrence is followed by an end-marker
occurrence, `removeBlocks` (the block-removal pass of `clean_content`)
deletes exactly the span from the first start marker through the *first*
end marker after it (lazy/nearest-end pairing) — the hypotheses say `i` is
the first start occurrence and `i + sp.length + j` the first end occurrence
at or after the end of that start marker, and nothing forbids further start
markers inside the span — and then continues on the remainder.  In
particular, for markers "X:"/"Y:" on "p X: q X: r Y: s" the removed span is
"X: q X: r Y:", leaving "p  s" before normalization. -/
theorem c1_lazy_pairing :
    (∀ (sp ep s : List Char) (i j : Nat), sp ≠ [] →
        occursAt sp s i = true → (∀ k < i, occursAt sp s k = false) →
        occursAt ep s (i + sp.length + j) = true →
        (∀ k < j, occursAt ep s (i + sp.length + k) = false) →
        removeBlocks sp ep s =
          s.take i ++ removeBlocks sp ep (s.drop (i + sp.length + j + ep.length))) ∧
      removeBlocks "X:".toList "Y:".toList "p X: q X: r Y: s".toList = "p  s".toList := by
  constructor
  · intro sp ep s i j hsp hocc hmin hocc2 hmin2
    have h1 : findSub sp s = some i := (findSub_eq_some_iff sp s i).mpr ⟨hocc, hmin⟩
    have h2 : findSub ep (s.drop (i + sp.length)) = some j := by
      refine (findSub_eq_some_iff ep (s.drop (i + sp.length)) j).mpr ⟨?_, ?_⟩
      · rw [occursAt_drop]; exact hocc2
      · intro k hk
        rw [occursAt_drop]
        exact hmin2 k hk
    rw [removeBlocks_step sp ep s i j hsp h1 h2, List.drop_drop]
    have h3 : i + sp.length + (j + ep.length) = i + sp.length + j + ep.length := by omega
    rw [h3]
  · decide

/-- Witness for C1 at markers "X:"/"Y:", content "p X: q X: r Y: s",
i = 2, j = 8. -/
theorem c1_lazy_pairing_witness :
    removeBlocks "X:".toList "Y:".toList "p X: q X: r Y: s".toList =
      "p X: q X: r Y: s".toList.take 2 ++
        removeBlocks "X:".toList "Y:".toList ("p X: q X: r Y: s".toList.drop 14) :=
  c1_lazy_pairing.1 "X:".toList "Y:".toList "p X: q X: r Y: s".toList 2 8
    (by decide) (by decide)
    (by intro k hk; interval_cases k <;> decide)
    (by decide)
    (by intro k hk; interval_cases k <;> decide)

/-- The seam input for C2: removing the first block splices "TES" onto
"T.IMPORT_FAILURES:…", creating a fresh block that only a second pass
removes. -/
def seam_input : List Char :=
  ("TES" ++ "TEST.IMPORT_FAILURES:" ++ "TEST.END_IMPORT_FAILURES:" ++
    "T.IMPORT_FAILURES:x" ++ "TEST.END_IMPORT_FAILURES:").toList

/-- C2 counterexample: `clean_content` is not idempotent on `seam_input`. -/
theorem c2_counterexample :
    clean_content (clean_content seam_input) ≠ clean_content seam_input := by
  decide

/-- C2 (amended): the whitespace-normalization pass is idempotent, and
`clean_content` is idempotent on every input whose one-pass output contains
no further start marker; full idempotence fails because a removal seam can
splice a new marker pair together (see the counterexample). -/
theorem c2_idempotence_amended :
    (∀ s : List Char, normalizeWs (normalizeWs s) = normalizeWs s) ∧
      ∀ s : List Char, findSub start_marker (clean_content s) = none →
        clean_content (clean_content s) = clean_content s := by
  constructor
  · exact normalizeWs_idem
  · intro s h
    have h1 : clean_content (clean_content s)
        = normalizeWs (removeBlocks start_marker end_marker (clean_content s)) := rfl
    rw [h1, removeBlocks_of_none _ _ _ h]
    have h2 : clean_content s = normalizeWs (removeBlocks start_marker end_marker s) := rfl
    rw [h2, normalizeWs_idem]

/-- Witness for C2 (amended) at input "a\nb". -/
theorem c2_idempotence_amended_witness :
    clean_content (clean_content "a\nb".toList) = clean_content "a\nb".toList :=
  c2_idempotence_amended.2 "a\nb".toList (by decide)

/-- C3: evaluating the code on the spec's (and docstring's) example input:
the block is removed and counted, but both the newline before the start
marker and the newline after the end marker survive, so the output is
"a\n\nb", not the documented "a\nb". -/
theorem c3_docstring_example :
    clean_content "a\nTEST.IMPORT_FAILURES:\nbad\nTEST.END_IMPORT_FAILURES:\nb".toList
        = "a\n\nb".toList ∧
      clean_content "a\nTEST.IMPORT_FAILURES:\nbad\nTEST.END_IMPORT_FAILURES:\nb".toList
        ≠ "a\nb".toList ∧
      count_blocks "a\nTEST.IMPORT_FAILURES:\nbad\nTEST.END_IMPORT_FAILURES:\nb".toList
        = 1 := by
  refine ⟨by decide, by decide, by decide⟩

/-- C4: for a content string with exactly one well-formed block — the first
start marker sits right after `a ++ ['\n']`, the first end marker after it
follows `b`, and no start marker remains afterwards — `removeBlocks`
deletes exactly the span from the start marker through the end marker
inclusive, keeping the newline before the start marker and the newline
after the end marker (before normalization), and `count_blocks` returns 1. -/
theorem c4_single_block :
    ∀ a b c : List Char,
      findSub start_marker (a ++ '\n' :: (start_marker ++ (b ++ (end_marker ++ '\n' :: c))))
          = some (a.length + 1) →
      findSub end_marker (b ++ (end_marker ++ '\n' :: c)) = some b.length →
      findSub start_marker ('\n' :: c) = none →
      removeBlocks start_marker end_marker
          (a ++ '\n' :: (start_marker ++ (b ++ (end_marker ++ '\n' :: c))))
        = a ++ '\n' :: '\n' :: c ∧
      count_blocks (a ++ '\n' :: (start_marker ++ (b ++ (end_marker ++ '\n' :: c)))) = 1 := by
  intro a b c h1 h2 h3
  have hsp : start_marker ≠ [] := by decide
  set s := a ++ '\n' :: (start_marker ++ (b ++ (end_marker ++ '\n' :: c))) with hs
  have hshape : s = (a ++ ['\n'] ++ start_marker) ++ (b ++ (end_marker ++ '\n' :: c)) := by
    simp [hs]
  have hd1 : s.drop (a.length + 1 + start_marker.length) = b ++ (end_marker ++ '\n' :: c) := by
    rw [hshape]
    exact drop_append_len _ _ _ (by simp; omega)
  have h2' : findSub end_marker (s.drop (a.length + 1 + start_marker.length))
      = some b.length := by rw [hd1]; exact h2
  have hd2 : (s.drop (a.length + 1 + start_marker.length)).drop (b.length + end_marker.length)
      = '\n' :: c := by
    rw [hd1]
    have hshape2 : b ++ (end_marker ++ '\n' :: c) = (b ++ end_marker) ++ ('\n' :: c) := by
      simp
    rw [hshape2]
    exact drop_append_len _ _ _ (by simp)
  have htake : s.take (a.length + 1) = a ++ ['\n'] := by
    have hshape3 : s = (a ++ ['\n']) ++ (start_marker ++ (b ++ (end_marker ++ '\n' :: c))) := by
      simp [hs]
    rw [hshape3]
    exact take_append_len _ _ _ (by simp)
  have h1' : findSub start_marker s = some (a.length + 1) := h1
  constructor
  · rw [removeBlocks_step start_marker end_marker s (a.length + 1) b.length hsp h1' h2',
      hd2, removeBlocks_of_none _ _ _ h3, htake]
    simp
  · rw [count_blocks_eq,
      countBlocks_step start_marker end_marker s (a.length + 1) b.length hsp h1' h2', hd2]
    have h0 : countBlocks start_marker end_marker ('\n' :: c) = 0 :=
      countAux_of_none _ _ _ _ h3
    rw [h0]

/-- Witness for C4 at a = "a", b = "\nbad\n", c = "b" (the spec's example
file layout). -/
theorem c4_single_block_witness :
    removeBlocks start_marker end_marker
        ("a".toList ++ '\n' :: (start_marker ++ ("\nbad\n".toList ++ (end_marker ++ '\n' :: "b".toList))))
      = "a".toList ++ '\n' :: '\n' :: "b".toList ∧
    count_blocks
        ("a".toList ++ '\n' :: (start_marker ++ ("\nbad\n".toList ++ (end_marker ++ '\n' :: "b".toList))))
      = 1 :=
  c4_single_block "a".toList "\nbad\n".toList "b".toList (by decide) (by decide) (by decide)

/-- C6: if no start-marker occurrence is followed by an end-marker
occurrence (no markers at all, or only unmatched start markers), the
block-removal pass deletes nothing, `clean_content` reduces to the
normalization pass alone, and `count_blocks` returns 0. -/
theorem c6_no_blocks :
    ∀ s : List Char,
      (∀ i < s.length, ∀ j < s.length,
          ¬(occursAt start_marker s i = true ∧
            occursAt end_marker s (i + start_marker.length + j) = true)) →
      removeBlocks start_marker end_marker s = s ∧
        clean_content s = normalizeWs s ∧ count_blocks s = 0 := by
  intro s h
  have main : removeBlocks start_marker end_marker s = s ∧ count_blocks s = 0 := by
    cases h1 : findSub start_marker s with
    | none =>
      exact ⟨removeBlocks_of_none _ _ _ h1, countAux_of_none _ _ _ _ h1⟩
    | some i =>
      have h2 : findSub end_marker (s.drop (i + start_marker.length)) = none := by
        rw [findSub_eq_none_iff]
        intro k
        by_cases hocc : occursAt end_marker (s.drop (i + start_marker.length)) k = true
        · exfalso
          rw [occursAt_drop] at hocc
          have hb1 := findSub_bound _ _ _ h1
          have hb2 := occursAt_true_bound end_marker s (i + start_marker.length + k)
            (by decide) hocc
          have hsm1 : (1:Nat) ≤ start_marker.length := by decide
          have hem1 : (1:Nat) ≤ end_marker.length := by decide
          have hocc1 : occursAt start_marker s i = true :=
            ((findSub_eq_some_iff _ _ _).mp h1).1
          exact h i (by omega) k (by omega) ⟨hocc1, hocc⟩
        · simpa using hocc
      exact ⟨removeBlocks_of_noend _ _ _ i h1 h2, countAux_of_noend _ _ _ _ i h1 h2⟩
  refine ⟨main.1, ?_, main.2⟩
  have hc : clean_content s = normalizeWs (removeBlocks start_marker end_marker s) := rfl
  rw [hc, main.1]

/-- Witness for C6 at "x\nTEST.IMPORT_FAILURES:\ntail" (an unmatched start
marker). -/
theorem c6_no_blocks_witness :
    removeBlocks start_marker end_marker "x\nTEST.IMPORT_FAILURES:\ntail".toList
        = "x\nTEST.IMPORT_FAILURES:\ntail".toList ∧
      clean_content "x\nTEST.IMPORT_FAILURES:\ntail".toList
        = normalizeWs "x\nTEST.IMPORT_FAILURES:\ntail".toList ∧
      count_blocks "x\nTEST.IMPORT_FAILURES:\ntail".toList = 0 :=
  c6_no_blocks "x\nTEST.IMPORT_FAILURES:\ntail".toList (by decide)

/-- C5: the whitespace-normalization pass caps newline runs at two: the
output never contains three consecutive newlines anywhere (so the pass is
global and also collapses pre-existing runs), a bare run of `n ≥ 3`
newlines becomes exactly two, and runs of 3, 4 and 5 newlines inside
surrounding text each collapse to exactly "\n\n". -/
theorem c5_newline_runs_capped :
    (∀ (s : List Char) (k : Nat),
        ("\n\n\n".toList).isPrefixOf ((normalizeWs s).drop k) = false) ∧
      (∀ n : Nat, 3 ≤ n → normalizeWs (List.replicate n '\n') = "\n\n".toList) ∧
      normalizeWs "a\n\n\nb".toList = "a\n\nb".toList ∧
      normalizeWs "a\n\n\n\nb".toList = "a\n\nb".toList ∧
      normalizeWs "a\n\n\n\n\nb".toList = "a\n\nb".toList ∧
      normalizeWs "x\n\n\ny\n\n\n\nz".toList = "x\n\ny\n\nz".toList := by
  refine ⟨?_, ?_, by decide, by decide, by decide, by decide⟩
  · intro s k
    by_cases h : ("\n\n\n".toList).isPrefixOf ((normalizeWs s).drop k) = true
    · exfalso
      obtain ⟨u, hu⟩ := List.isPrefixOf_iff_prefix.mp h
      apply matchFree_normalizeWs s k
      rw [← hu]
      have he : "\n\n\n".toList ++ u = '\n' :: '\n' :: '\n' :: u := rfl
      rw [he]
      refine ⟨rfl, ?_⟩
      have hnl : isPySpace '\n' = true := by decide
      rw [List.takeWhile_cons, hnl, if_pos rfl, List.takeWhile_cons, hnl, if_pos rfl,
        List.count_cons, List.count_cons]
      simp
    · simp only [Bool.not_eq_true] at h
      exact h
  · intro n hn
    obtain ⟨m, rfl⟩ : ∃ m, n = m + 3 := ⟨n - 3, by omega⟩
    have hstep : List.replicate (m + 3) '\n' = '\n' :: List.replicate (m + 2) '\n' :=
      List.replicate_succ '\n' (m + 2)
    have hws : ∀ c ∈ List.replicate (m + 2) '\n', isPySpace c = true := by
      intro c hc
      rw [List.eq_of_mem_replicate hc]
      decide
    have htw : (List.replicate (m + 2) '\n').takeWhile isPySpace
        = List.replicate (m + 2) '\n' := takeWhile_all _ _ hws
    have hcnt : 2 ≤ ((List.replicate (m + 2) '\n').takeWhile isPySpace).count '\n' := by
      rw [htw, List.count_replicate_self]
      omega
    rw [hstep, normalizeWs_cons_match _ hcnt, htw]
    have hnt : nlTail (List.replicate (m + 2) '\n') = [] := by
      rw [List.replicate_succ' (m + 1) '\n', nlTail_append_nl]
    have hdw : (List.replicate (m + 2) '\n').dropWhile isPySpace = [] :=
      dropWhile_all _ _ hws
    rw [hnt, hdw]
    rfl

/-- Witness for C5 (the `n ≥ 3` conjunct) at n = 5. -/
theorem c5_newline_runs_capped_witness :
    normalizeWs (List.replicate 5 '\n') = "\n\n".toList :=
  c5_newline_runs_capped.2.1 5 (by omega)

/-- C7 counterexample: with identical (malformed) markers "X:"/"X:" on
"X:aX:", the matching machinery does *not* fail fast and does *not* leave
the content unprocessed — there is no validation in the code. -/
theorem c7_counterexample :
    ¬(removeBlocks "X:".toList "X:".toList "X:aX:".toList = "X:aX:".toList ∧
      countBlocks "X:".toList "X:".toList "X:aX:".toList = 0) := by
  decide

/-- C7 (amended): the code validates nothing about the marker pair; with
identical non-empty markers the pair is treated like any other, silently
matching and removing the span "X:aX:" (one counted block) instead of
raising an invalid-argument error. -/
theorem c7_no_validation :
    removeBlocks "X:".toList "X:".toList "X:aX:".toList = [] ∧
      countBlocks "X:".toList "X:".toList "X:aX:".toList = 1 := by
  decide

/-- C8: the cleaning scan is total: for every input the block-removal and
block-counting loops terminate within `s.length` iterations — any
sufficiently large fuel computes `clean_content` and `count_blocks`, so
the function yields a result on all strings. -/
theorem c8_total :
    ∀ (s : List Char) (f : Nat), s.length ≤ f →
      normalizeWs (removeAux start_marker end_marker f s) = clean_content s ∧
        countAux start_marker end_marker f s = count_blocks s := by
  intro s f h
  have hsp : start_marker ≠ [] := by decide
  constructor
  · have h1 : clean_content s = normalizeWs (removeBlocks start_marker end_marker s) := rfl
    rw [h1]
    unfold removeBlocks
    rw [removeAux_fuel_congr start_marker end_marker hsp f s.length s h (Nat.le_refl _)]
  · exact countAux_fuel_congr start_marker end_marker hsp f s.length s h (Nat.le_refl _)

/-- Witness for C8 at s = "abc", fuel = 17. -/
theorem c8_total_witness :
    normalizeWs (removeAux start_marker end_marker 17 "abc".toList)
        = clean_content "abc".toList ∧
      countAux start_marker end_marker 17 "abc".toList = count_blocks "abc".toList :=
  c8_total "abc".toList 17 (by decide)

/-- C9: `clean_content` never lengthens the buffer: block removal only
deletes, and each normalization replacement writes two newlines for a span
of at least three characters. -/
theorem c9_output_no_longer :
    ∀ s : List Char, (clean_content s).length ≤ s.length := by
  intro s
  have h1 : clean_content s = normalizeWs (removeBlocks start_marker end_marker s) := rfl
  rw [h1]
  calc (normalizeWs (removeBlocks start_marker end_marker s)).length
      ≤ (removeBlocks start_marker end_marker s).length :=
        normalizeWs_length_le _
    _ ≤ s.length := removeAux_length_le start_marker end_marker s.length s

/-- C10: the normalization pattern is wider than bare newline runs: a
newline followed by whitespace, a newline, whitespace, and a newline — with
arbitrary whitespace (spaces, tabs, newlines) between — collapses to
exactly "\n\n", deleting the interior whitespace; e.g. "a\n \n\t\nb"
becomes "a\n\nb". -/
theorem c10_blank_lines_with_ws :
    (∀ w1 w2 b : List Char,
        (∀ c ∈ w1, isPySpace c = true) → (∀ c ∈ w2, isPySpace c = true) →
        b.takeWhile isPySpace = [] →
        normalizeWs ('\n' :: (w1 ++ '\n' :: (w2 ++ '\n' :: b)))
          = '\n' :: '\n' :: normalizeWs b) ∧
      normalizeWs "a\n \n\t\nb".toList = "a\n\nb".toList := by
  constructor
  · intro w1 w2 b hw1 hw2 hb
    have hnl : isPySpace '\n' = true := by decide
    have htw : (w1 ++ '\n' :: (w2 ++ '\n' :: b)).takeWhile isPySpace
        = w1 ++ '\n' :: (w2 ++ ['\n']) := by
      rw [takeWhile_append_all isPySpace w1 _ hw1, List.takeWhile_cons, hnl, if_pos rfl,
        takeWhile_append_all isPySpace w2 _ hw2, List.takeWhile_cons, hnl, if_pos rfl, hb]
    have hcnt : 2 ≤ ((w1 ++ '\n' :: (w2 ++ '\n' :: b)).takeWhile isPySpace).count '\n' := by
      rw [htw, List.count_append, List.count_cons, List.count_append]
      simp only [List.count_singleton, beq_self_eq_true, if_true]
      omega
    have hdw : (w1 ++ '\n' :: (w2 ++ '\n' :: b)).dropWhile isPySpace = b := by
      rw [dropWhile_append_all isPySpace w1 _ hw1, List.dropWhile_cons, hnl]
      simp only [if_true]
      rw [dropWhile_append_all isPySpace w2 _ hw2, List.dropWhile_cons, hnl]
      simp only [if_true]
      exact dropWhile_of_takeWhile_nil isPySpace b hb
    have hnt : nlTail ((w1 ++ '\n' :: (w2 ++ '\n' :: b)).takeWhile isPySpace) = [] := by
      rw [htw]
      have hshape : w1 ++ '\n' :: (w2 ++ ['\n']) = (w1 ++ '\n' :: w2) ++ ['\n'] := by
        simp
      rw [hshape, nlTail_append_nl]
    rw [normalizeWs_cons_match _ hcnt, hnt, hdw, List.nil_append]
  · decide

/-- Witness for C10 at w1 = [' '], w2 = ['\t'], b = "b". -/
theorem c10_blank_lines_with_ws_witness :
    normalizeWs ('\n' :: ([' '] ++ '\n' :: (['\t'] ++ '\n' :: "b".toList)))
      = '\n' :: '\n' :: normalizeWs "b".toList :=
  c10_blank_lines_with_ws.1 [' '] ['\t'] "b".toList (by decide) (by decide) (by decide)
